import Mathlib

/-!
# Verification of DOLFIN mesh-quality reductions and distributed-vector resize

Shallow embedding of `cpp/dolfin/mesh/MeshQuality.cpp` and of the
distributed-vector resize contract.  C++ `double` values are modelled as exact
rationals (`ℚ`) for the radius-ratio pipeline and as reals (`ℝ`) for the
dihedral-angle pipeline (which uses `acos`, `sqrt`, `π`).  A distributed mesh
is modelled as a list of per-process local meshes; an MPI reduction over the
communicator is a fold over that list.  `static_cast<std::size_t>` applied to a
non-negative floating value truncates, i.e. takes the floor; it is modelled as
`Int.toNat ⌊·⌋`.
-/

namespace MeshQuality

/-- `std::numeric_limits<double>::max()`, exactly: `(2 - 2^-52) * 2^1023`. -/
def DBL_MAX : ℚ := 2 ^ 1024 - 2 ^ 971

/-- An MPI reduction (`MPI::min`, `MPI::max`) over the per-process values of a
communicator: every participating process contributes its local value and the
reduction combines them.  The communicator always has at least one process;
the `[]` case is never exercised. -/
def mpiReduce (f : ℚ → ℚ → ℚ) : List ℚ → ℚ
  | [] => 0
  | x :: xs => xs.foldl f x

/-- The local loop of `MeshQuality::radius_ratio_min_max`: starting from
`qmin = DBL_MAX`, `qmax = 0.0`, fold `min`/`max` of `cell.radius_ratio()` over
the process's cells (a cell is represented by its radius ratio). -/
def localMinMax (cells : List ℚ) : ℚ × ℚ :=
  cells.foldl (fun q r => (min q.1 r, max q.2 r)) (DBL_MAX, 0)

/-- `MeshQuality::radius_ratio_min_max`: each process computes `localMinMax`
over its own cells, then `qmin` is min-reduced and `qmax` max-reduced across
the communicator. -/
def radius_ratio_min_max (procs : List (List ℚ)) : ℚ × ℚ :=
  let locals := procs.map localMinMax
  (mpiReduce min (locals.map Prod.fst), mpiReduce max (locals.map Prod.snd))

/-- The bin index of `MeshQuality::radius_ratio_histogram_data`:
`std::min(static_cast<std::size_t>(ratio / interval), num_bins - 1)`. -/
def rrSlot (ratio interval : ℚ) (numBins : ℕ) : ℕ :=
  min (Int.toNat ⌊ratio / interval⌋) (numBins - 1)

/-- The local accumulation loop of `radius_ratio_histogram_data`: starting
from `values(num_bins, 0.0)`, each cell does `values[slot] += 1.0`. -/
def radius_ratio_histogram_local (cells : List ℚ) (numBins : ℕ) : List ℚ :=
  let interval : ℚ := 1 / (numBins : ℚ)
  cells.foldl
    (fun values ratio =>
      let slot := rrSlot ratio interval numBins
      values.set slot (values.getD slot 0 + 1))
    (List.replicate numBins 0)

/-- `MeshQuality::radius_ratio_histogram_data`: bins are the centres
`i * interval + interval / 2` with `interval = 1 / num_bins`; each process
accumulates its local histogram and each `values[i]` is then sum-reduced
across the communicator. -/
def radius_ratio_histogram_data (procs : List (List ℚ)) (numBins : ℕ) :
    List ℚ × List ℚ :=
  let interval : ℚ := 1 / (numBins : ℚ)
  let bins := (List.range numBins).map fun i => (i : ℚ) * interval + interval / 2
  let locals := procs.map (radius_ratio_histogram_local · numBins)
  let values := (List.range numBins).map fun i => (locals.map fun v => v.getD i 0).sum
  (bins, values)

/-- The spec's "direct min over a radius_ratio scan": start at the first
value and fold `min` (on an empty scan the `DBL_MAX` start value remains). -/
def specScanMin : List ℚ → ℚ
  | [] => DBL_MAX
  | x :: xs => xs.foldl min x

/-- The spec's "direct max over a radius_ratio scan". -/
def specScanMax : List ℚ → ℚ
  | [] => 0
  | x :: xs => xs.foldl max x

/-- `dolfin::geometry::Point`: a 3-component coordinate vector. -/
structure Point where
  x : ℝ
  y : ℝ
  z : ℝ

namespace Point

/-- `Point::operator-`. -/
noncomputable def sub (p q : Point) : Point :=
  ⟨p.x - q.x, p.y - q.y, p.z - q.z⟩

/-- `Point::dot`. -/
noncomputable def dot (p q : Point) : ℝ :=
  p.x * q.x + p.y * q.y + p.z * q.z

/-- `Point::cross`. -/
noncomputable def cross (p q : Point) : Point :=
  ⟨p.y * q.z - p.z * q.y, p.z * q.x - p.x * q.z, p.x * q.y - p.y * q.x⟩

/-- `Point::norm`: the Euclidean norm. -/
noncomputable def norm (p : Point) : ℝ :=
  Real.sqrt (p.dot p)

/-- `Point::operator/=` by a scalar. -/
noncomputable def divScalar (p : Point) (a : ℝ) : Point :=
  ⟨p.x / a, p.y / a, p.z / a⟩

end Point

/-- The data of one mesh cell that `MeshQuality::dihedral_angles` reads:
`cell.dim()`, `cell.entities(0)` (the cell's vertex indices) and the mesh's
vertex coordinates (`Vertex(mesh, i).point()`). -/
structure Cell where
  tdim : ℕ
  verts : List ℕ
  meshPoints : List Point

/-- The static edge table of `MeshQuality::dihedral_angles`:
`{{2,3},{1,3},{1,2},{0,3},{0,2},{0,1}}`. -/
def edges : List (ℕ × ℕ) :=
  [(2, 3), (1, 3), (1, 2), (0, 3), (0, 2), (0, 1)]

/-- The body of iteration `i` of the loop in `MeshQuality::dihedral_angles`:
`i0,i1` are the endpoints of edge `i`, `i2,i3` those of edge `5 - i`;
`v1,v2,v3` are the vectors from `p0 = point(i0)` to the other three points,
each normalized in place, and the angle is
`acos((v2·v3 − (v1·v2)(v1·v3)) / (|v1×v2| |v1×v3|))`. -/
noncomputable def dihedralAngleAt (cell : Cell) (i : ℕ) : ℝ :=
  let e := edges.getD i (0, 0)
  let f := edges.getD (5 - i) (0, 0)
  let i0 := cell.verts.getD e.1 0
  let i1 := cell.verts.getD e.2 0
  let i2 := cell.verts.getD f.1 0
  let i3 := cell.verts.getD f.2 0
  let p0 := cell.meshPoints.getD i0 ⟨0, 0, 0⟩
  let v1 := (cell.meshPoints.getD i1 ⟨0, 0, 0⟩).sub p0
  let v2 := (cell.meshPoints.getD i2 ⟨0, 0, 0⟩).sub p0
  let v3 := (cell.meshPoints.getD i3 ⟨0, 0, 0⟩).sub p0
  let u1 := v1.divScalar v1.norm
  let u2 := v2.divScalar v2.norm
  let u3 := v3.divScalar v3.norm
  Real.arccos ((u2.dot u3 - u1.dot u2 * (u1.dot u3)) /
    ((u1.cross u2).norm * (u1.cross u3).norm))

/-- `MeshQuality::dihedral_angles`: takes the caller's output array
`dh_angle` and returns its final contents together with an optional error.
On a non-3D cell, `dolfin_error` aborts the call (modelled from the spec:
`log::dolfin_error` is not under `src/`; per the spec it reports the error
and aborts the operation with no partial mutation), so the array is returned
untouched.  On a 3D cell the array is resized to 6 and every entry is
overwritten. -/
noncomputable def dihedral_angles (cell : Cell) (dh_angle : List ℝ) :
    List ℝ × Option String :=
  if cell.tdim ≠ 3 then
    (dh_angle, some "calculate dihedral angles: Only works for 3D cells")
  else
    ((List.range 6).map (dihedralAngleAt cell), none)

/-- The spec's dihedral-angle formula on unit vectors:
`acos((v2·v3 − v1·v2·v1·v3) / (|v1×v2| |v1×v3|))`. -/
noncomputable def specDihedralAngle (u1 u2 u3 : Point) : ℝ :=
  Real.arccos ((u2.dot u3 - u1.dot u2 * (u1.dot u3)) /
    ((u1.cross u2).norm * (u1.cross u3).norm))

/-- A unit vector along a direction (spec side). -/
noncomputable def unitVec (p : Point) : Point :=
  p.divScalar p.norm

/-- The spec's value of the `i`-th dihedral angle of a cell: the unit edge
vectors from the shared base vertex (the first endpoint of the `i`-th edge
pair) towards the edge's other endpoint and the opposite edge's endpoints,
fed into `specDihedralAngle`. -/
noncomputable def specAngleOfCell (cell : Cell) (i : ℕ) : ℝ :=
  let pt := fun k => cell.meshPoints.getD (cell.verts.getD k 0) ⟨0, 0, 0⟩
  let e := edges.getD i (0, 0)
  let f := edges.getD (5 - i) (0, 0)
  specDihedralAngle (unitVec ((pt e.2).sub (pt e.1)))
    (unitVec ((pt f.1).sub (pt e.1))) (unitVec ((pt f.2).sub (pt e.1)))

/-- The 6 dihedral angles of a (3D) cell, in loop order. -/
noncomputable def cellAngles (cell : Cell) : List ℝ :=
  (List.range 6).map (dihedralAngleAt cell)

/-- The bin index of `MeshQuality::dihedral_angles_histogram_data`:
`std::min(static_cast<std::size_t>(angs[i] / interval), num_bins - 1)`. -/
noncomputable def daSlot (angle interval : ℝ) (numBins : ℕ) : ℕ :=
  min (Int.toNat ⌊angle / interval⌋) (numBins - 1)

/-- The slots of a cell's 6 dihedral angles for a given bin count. -/
noncomputable def cellSlots (cell : Cell) (numBins : ℕ) : List ℕ :=
  (cellAngles cell).map fun a => daSlot a (Real.pi / (numBins : ℝ)) numBins

/-- The local accumulation loop of `dihedral_angles_histogram_data`: for each
cell, compute its 6 dihedral angles (aborting, like the C++ call would, if a
cell is not 3D) and do `values[slot] += 1.0` for each angle. -/
noncomputable def dihedral_angles_histogram_local :
    List Cell → ℕ → List ℝ → Except String (List ℝ)
  | [], _, values => .ok values
  | c :: cs, numBins, values =>
    match dihedral_angles c (List.replicate 6 0) with
    | (_, some e) => .error e
    | (angs, none) =>
      dihedral_angles_histogram_local cs numBins
        (angs.foldl
          (fun values a =>
            let slot := daSlot a (Real.pi / (numBins : ℝ)) numBins
            values.set slot (values.getD slot 0 + 1))
          values)

/-- The per-process local histograms of `dihedral_angles_histogram_data`,
each starting from `values(num_bins, 0.0)`; an error on any process aborts
the collective computation. -/
noncomputable def gatherLocals :
    List (List Cell) → ℕ → Except String (List (List ℝ))
  | [], _ => .ok []
  | cells :: rest, numBins => do
    let v ← dihedral_angles_histogram_local cells numBins (List.replicate numBins 0)
    let vs ← gatherLocals rest numBins
    pure (v :: vs)

/-- `MeshQuality::dihedral_angles_histogram_data`: bins are the centres
`i * interval + interval / 2` with `interval = M_PI / num_bins`; each process
accumulates its local histogram over its cells' dihedral angles and each
`values[i]` is then sum-reduced across the communicator. -/
noncomputable def dihedral_angles_histogram_data (procs : List (List Cell))
    (numBins : ℕ) : Except String (List ℝ × List ℝ) := do
  let interval : ℝ := Real.pi / (numBins : ℝ)
  let bins := (List.range numBins).map fun i => (i : ℝ) * interval + interval / 2
  let locals ← gatherLocals procs numBins
  let values := (List.range numBins).map fun i => (locals.map fun v => v.getD i 0).sum
  pure (bins, values)

/-- Modelled from the spec: the generic distributed vector's resize contract
(`EpetraVector.cpp` is not under `src/`).  A vector owns its backing storage
through a reference-counted handle; `useCount` is the number of live owning
handles.  `resize` must fail when the storage is shared with another live
owner, leaving the storage untouched, and reallocates only under unique
ownership. -/
structure EpetraVector where
  data : List ℚ
  useCount : ℕ

/-- Modelled from the spec: `EpetraVector::resize` fails on an aliased
vector (shared storage, `useCount ≠ 1`) without mutating the shared storage,
and under unique ownership reallocates to the requested global size. -/
def EpetraVector.resize (v : EpetraVector) (globalSize : ℕ) :
    Except String EpetraVector :=
  if v.useCount ≠ 1 then
    .error "resize Epetra vector: Vector data is shared and cannot be resized"
  else
    .ok ⟨List.replicate globalSize 0, 1⟩

end MeshQuality

namespace MeshQuality

/-! ## Generic lemmas about the `values[slot] += 1.0` accumulation

These hold over any linear ordered field, so they serve both the `ℚ`-valued
radius-ratio histogram and the `ℝ`-valued dihedral-angle histogram. -/

section Hist

variable {α : Type*} [LinearOrderedField α]

/-- One histogram increment: `values[i] += 1`. -/
def bumpAt (vals : List α) (i : ℕ) : List α :=
  vals.set i (vals.getD i 0 + 1)

theorem bumpAt_length (vals : List α) (i : ℕ) :
    (bumpAt vals i).length = vals.length := by
  simp [bumpAt]

theorem getD_set_self (vals : List α) (i : ℕ) (x : α) (h : i < vals.length) :
    (vals.set i x).getD i 0 = x := by
  simp [List.getD, List.getElem?_set_self, h]

theorem getD_set_ne (vals : List α) (i j : ℕ) (x : α) (hij : i ≠ j) :
    (vals.set i x).getD j 0 = vals.getD j 0 := by
  simp [List.getD, List.getElem?_set_ne hij]

theorem bumpAt_getD (vals : List α) (i j : ℕ) (h : i < vals.length) :
    (bumpAt vals i).getD j 0 =
      vals.getD j 0 + if i = j then 1 else 0 := by
  rcases eq_or_ne i j with rfl | hij
  · rw [bumpAt, getD_set_self vals i _ h]; simp
  · rw [bumpAt, getD_set_ne vals i j _ hij]; simp [hij]

theorem sum_set (vals : List α) (i : ℕ) (x : α) (h : i < vals.length) :
    (vals.set i x).sum = vals.sum - vals.getD i 0 + x := by
  induction vals generalizing i with
  | nil => simp at h
  | cons a l ih =>
    cases i with
    | zero => simp [List.getD]; ring
    | succ n =>
      simp only [List.set_cons_succ, List.sum_cons]
      rw [ih n (by simpa using h)]
      simp [List.getD]
      ring

theorem bumpAt_sum (vals : List α) (i : ℕ) (h : i < vals.length) :
    (bumpAt vals i).sum = vals.sum + 1 := by
  rw [bumpAt, sum_set vals i _ h]
  ring

/-- Folding `bumpAt` over a list of in-range slots preserves length. -/
theorem foldl_bumpAt_length (slots : List ℕ) (vals : List α) :
    (slots.foldl bumpAt vals).length = vals.length := by
  induction slots generalizing vals with
  | nil => rfl
  | cons s ss ih => rw [List.foldl_cons, ih, bumpAt_length]

/-- Folding `bumpAt` over a list of in-range slots adds, at each index `j`,
the number of slots equal to `j`. -/
theorem foldl_bumpAt_getD (slots : List ℕ) (vals : List α) (j : ℕ)
    (hlt : ∀ s ∈ slots, s < vals.length) :
    (slots.foldl bumpAt vals).getD j 0 =
      vals.getD j 0 + (slots.countP (fun s => s = j) : α) := by
  induction slots generalizing vals with
  | nil => simp
  | cons s ss ih =>
    rw [List.foldl_cons, ih (bumpAt vals s) (fun t ht => by
      rw [bumpAt_length]; exact hlt t (List.mem_cons_of_mem _ ht))]
    rw [bumpAt_getD vals s j (hlt s (List.mem_cons_self _ _))]
    rcases eq_or_ne s j with rfl | hsj
    · rw [List.countP_cons_of_pos _ _ (by simp)]
      push_cast
      simp only [if_true]
      ring
    · rw [List.countP_cons_of_neg _ _ (by simp [hsj])]
      simp [hsj]

/-- Folding `bumpAt` over in-range slots adds the number of slots to the sum. -/
theorem foldl_bumpAt_sum (slots : List ℕ) (vals : List α)
    (hlt : ∀ s ∈ slots, s < vals.length) :
    (slots.foldl bumpAt vals).sum = vals.sum + (slots.length : α) := by
  induction slots generalizing vals with
  | nil => simp
  | cons s ss ih =>
    rw [List.foldl_cons, ih _ (fun t ht => by
      rw [bumpAt_length]; exact hlt t (List.mem_cons_of_mem _ ht))]
    rw [bumpAt_sum vals s (hlt s (List.mem_cons_self _ _)), List.length_cons]
    push_cast
    ring

theorem sum_map_cast' {β : Type} (l : List β) (f : β → ℕ) :
    (l.map fun x => ((f x : ℕ) : α)).sum = (((l.map f).sum : ℕ) : α) := by
  induction l with
  | nil => simp
  | cons x xs ih => simp [ih]

end Hist

/-- The local histogram loop is `bumpAt` folded over the cells' slots. -/
theorem radius_ratio_histogram_local_eq (cells : List ℚ) (numBins : ℕ) :
    radius_ratio_histogram_local cells numBins =
      (cells.map (fun r => rrSlot r (1 / (numBins : ℚ)) numBins)).foldl bumpAt
        (List.replicate numBins 0) := by
  rw [radius_ratio_histogram_local, List.foldl_map]
  rfl

/-! ## Lemmas about `min`/`max` folds and MPI reductions -/

theorem foldl_pair_minmax (cells : List ℚ) (a b : ℚ) :
    cells.foldl (fun q r => (min q.1 r, max q.2 r)) (a, b) =
      (cells.foldl min a, cells.foldl max b) := by
  induction cells generalizing a b with
  | nil => rfl
  | cons c cs ih => simp [List.foldl_cons, ih]

theorem localMinMax_eq (cells : List ℚ) :
    localMinMax cells = (cells.foldl min DBL_MAX, cells.foldl max 0) :=
  foldl_pair_minmax cells DBL_MAX 0

theorem foldl_min_le_init (l : List ℚ) (a : ℚ) : l.foldl min a ≤ a := by
  induction l generalizing a with
  | nil => exact le_refl a
  | cons x xs ih =>
    exact le_trans (ih (min a x)) (min_le_left a x)

theorem foldl_min_le_mem (l : List ℚ) (a : ℚ) (r : ℚ) (hr : r ∈ l) :
    l.foldl min a ≤ r := by
  induction l generalizing a with
  | nil => simp at hr
  | cons x xs ih =>
    rcases List.mem_cons.mp hr with rfl | hr
    · exact le_trans (foldl_min_le_init xs (min a r)) (min_le_right a r)
    · exact ih (min a x) hr

theorem foldl_min_eq_or_mem (l : List ℚ) (a : ℚ) :
    l.foldl min a = a ∨ l.foldl min a ∈ l := by
  induction l generalizing a with
  | nil => exact Or.inl rfl
  | cons x xs ih =>
    rcases ih (min a x) with h | h
    · rcases min_choice a x with hm | hm
      · rw [List.foldl_cons, h, hm]; exact Or.inl rfl
      · rw [List.foldl_cons, h, hm]; exact Or.inr (List.mem_cons_self _ _)
    · exact Or.inr (List.mem_cons_of_mem _ h)

theorem init_le_foldl_max (l : List ℚ) (a : ℚ) : a ≤ l.foldl max a := by
  induction l generalizing a with
  | nil => exact le_refl a
  | cons x xs ih =>
    exact le_trans (le_max_left a x) (ih (max a x))

theorem mem_le_foldl_max (l : List ℚ) (a : ℚ) (r : ℚ) (hr : r ∈ l) :
    r ≤ l.foldl max a := by
  induction l generalizing a with
  | nil => simp at hr
  | cons x xs ih =>
    rcases List.mem_cons.mp hr with rfl | hr
    · exact le_trans (le_max_right a r) (init_le_foldl_max xs (max a r))
    · exact ih (max a x) hr

theorem foldl_max_eq_or_mem (l : List ℚ) (a : ℚ) :
    l.foldl max a = a ∨ l.foldl max a ∈ l := by
  induction l generalizing a with
  | nil => exact Or.inl rfl
  | cons x xs ih =>
    rcases ih (max a x) with h | h
    · rcases max_choice a x with hm | hm
      · rw [List.foldl_cons, h, hm]; exact Or.inl rfl
      · rw [List.foldl_cons, h, hm]; exact Or.inr (List.mem_cons_self _ _)
    · exact Or.inr (List.mem_cons_of_mem _ h)

theorem foldl_max_le (l : List ℚ) (a b : ℚ) (ha : a ≤ b)
    (hl : ∀ r ∈ l, r ≤ b) : l.foldl max a ≤ b := by
  induction l generalizing a with
  | nil => exact ha
  | cons x xs ih =>
    exact ih (max a x)
      (max_le ha (hl x (List.mem_cons_self _ _)))
      (fun r hr => hl r (List.mem_cons_of_mem _ hr))

theorem mpiReduce_min_le (xs : List ℚ) (x : ℚ) (hx : x ∈ xs) :
    mpiReduce min xs ≤ x := by
  match xs, hx with
  | y :: ys, hx =>
    rcases List.mem_cons.mp hx with rfl | hx
    · exact foldl_min_le_init ys x
    · exact foldl_min_le_mem ys y x hx

theorem mpiReduce_min_mem (xs : List ℚ) (hne : xs ≠ []) :
    mpiReduce min xs ∈ xs := by
  match xs with
  | y :: ys =>
    rcases foldl_min_eq_or_mem ys y with h | h
    · rw [mpiReduce, h]; exact List.mem_cons_self _ _
    · exact List.mem_cons_of_mem _ h

theorem mpiReduce_max_ge (xs : List ℚ) (x : ℚ) (hx : x ∈ xs) :
    x ≤ mpiReduce max xs := by
  match xs, hx with
  | y :: ys, hx =>
    rcases List.mem_cons.mp hx with rfl | hx
    · exact init_le_foldl_max ys x
    · exact mem_le_foldl_max ys y x hx

theorem mpiReduce_max_mem (xs : List ℚ) (hne : xs ≠ []) :
    mpiReduce max xs ∈ xs := by
  match xs with
  | y :: ys =>
    rcases foldl_max_eq_or_mem ys y with h | h
    · rw [mpiReduce, h]; exact List.mem_cons_self _ _
    · exact List.mem_cons_of_mem _ h

theorem foldl_const (f : ℚ → ℚ → ℚ) (c : ℚ) (hf : f c c = c) (l : List ℚ)
    (hl : ∀ x ∈ l, x = c) : l.foldl f c = c := by
  induction l with
  | nil => rfl
  | cons x xs ih =>
    rw [List.foldl_cons, hl x (List.mem_cons_self _ _), hf]
    exact ih (fun y hy => hl y (List.mem_cons_of_mem _ hy))

theorem mpiReduce_const (f : ℚ → ℚ → ℚ) (c : ℚ) (hf : f c c = c)
    (xs : List ℚ) (hx : ∀ x ∈ xs, x = c) (hne : xs ≠ []) :
    mpiReduce f xs = c := by
  match xs with
  | y :: ys =>
    rw [mpiReduce, hx y (List.mem_cons_self _ _)]
    exact foldl_const f c hf ys (fun x h => hx x (List.mem_cons_of_mem _ h))

/-- Slots are always in range when `num_bins ≥ 1`. -/
theorem rrSlot_lt (ratio interval : ℚ) (numBins : ℕ) (h : 1 ≤ numBins) :
    rrSlot ratio interval numBins < numBins := by
  unfold rrSlot
  exact lt_of_le_of_lt (min_le_right _ _) (Nat.sub_lt h Nat.one_pos)

/-- A ratio of exactly `1.0` lands in the last bin. -/
theorem rrSlot_one (numBins : ℕ) (h : 1 ≤ numBins) :
    rrSlot 1 (1 / (numBins : ℚ)) numBins = numBins - 1 := by
  unfold rrSlot
  rw [one_div_one_div, Int.floor_natCast, Int.toNat_natCast]
  omega

/-! ## Characterizing the local and global radius-ratio histograms -/

theorem radius_ratio_histogram_local_length (cells : List ℚ) (numBins : ℕ) :
    (radius_ratio_histogram_local cells numBins).length = numBins := by
  rw [radius_ratio_histogram_local_eq, foldl_bumpAt_length, List.length_replicate]

theorem radius_ratio_histogram_local_getD (cells : List ℚ) (numBins : ℕ)
    (h : 1 ≤ numBins) (i : ℕ) :
    (radius_ratio_histogram_local cells numBins).getD i 0 =
      (cells.countP (fun r => rrSlot r (1 / (numBins : ℚ)) numBins = i) : ℕ) := by
  rw [radius_ratio_histogram_local_eq]
  rw [foldl_bumpAt_getD _ _ _ (fun s hs => by
    rw [List.length_replicate]
    rcases List.mem_map.mp hs with ⟨r, _, rfl⟩
    exact rrSlot_lt r _ numBins h)]
  rw [List.countP_map]
  have hz : (List.replicate numBins (0 : ℚ)).getD i 0 = 0 := by
    rcases lt_or_ge i numBins with hi | hi
    · simp [List.getD, List.getElem?_replicate, hi]
    · have hlen : (List.replicate numBins (0 : ℚ)).length ≤ i := by simpa using hi
      simp [List.getD, List.getElem?_eq_none hlen]
  rw [hz, zero_add]
  rfl

theorem radius_ratio_histogram_local_sum (cells : List ℚ) (numBins : ℕ)
    (h : 1 ≤ numBins) :
    (radius_ratio_histogram_local cells numBins).sum = (cells.length : ℚ) := by
  rw [radius_ratio_histogram_local_eq]
  rw [foldl_bumpAt_sum _ _ (fun s hs => by
    rw [List.length_replicate]
    rcases List.mem_map.mp hs with ⟨r, _, rfl⟩
    exact rrSlot_lt r _ numBins h)]
  simp

theorem sum_map_range (f : ℕ → ℚ) (n : ℕ) :
    ((List.range n).map f).sum = ∑ i ∈ Finset.range n, f i := by
  induction n with
  | zero => simp
  | succ m ih =>
    rw [List.range_succ, List.map_append, List.sum_append, Finset.sum_range_succ, ih]
    simp

theorem sum_comm_list (L : List (List ℚ)) (n : ℕ) :
    ∑ i ∈ Finset.range n, (L.map fun v => v.getD i 0).sum =
      (L.map fun v => ∑ i ∈ Finset.range n, v.getD i 0).sum := by
  induction L with
  | nil => simp
  | cons v vs ih =>
    simp only [List.map_cons, List.sum_cons]
    rw [Finset.sum_add_distrib, ih]

theorem sum_range_getD (v : List ℚ) :
    ∑ i ∈ Finset.range v.length, v.getD i 0 = v.sum := by
  induction v with
  | nil => simp
  | cons a l ih =>
    rw [List.length_cons, Finset.sum_range_succ']
    simp only [List.getD_cons_succ, List.getD_cons_zero, List.sum_cons]
    rw [ih]
    ring


/-- The global histogram `values` entry `i` is the total number of cells,
over all processes, whose slot is `i`. -/
theorem radius_ratio_values_getD (procs : List (List ℚ)) (numBins : ℕ)
    (h : 1 ≤ numBins) (i : ℕ) (hi : i < numBins) :
    (radius_ratio_histogram_data procs numBins).2.getD i 0 =
      ((procs.map fun cells =>
        cells.countP (fun r => rrSlot r (1 / (numBins : ℚ)) numBins = i)).sum : ℕ) := by
  show ((List.range numBins).map fun j =>
      ((procs.map (radius_ratio_histogram_local · numBins)).map fun v => v.getD j 0).sum).getD i 0 = _
  rw [List.getD_eq_getElem?_getD, List.getElem?_map, List.getElem?_range hi]
  simp only [Option.map_some', Option.getD_some]
  rw [List.map_map]
  simp only [Function.comp_def]
  have : ∀ cells : List ℚ,
      (radius_ratio_histogram_local cells numBins).getD i 0 =
        ((cells.countP (fun r => rrSlot r (1 / (numBins : ℚ)) numBins = i) : ℕ) : ℚ) :=
    fun cells => radius_ratio_histogram_local_getD cells numBins h i
  rw [List.map_congr_left (fun cells _ => this cells)]
  exact sum_map_cast' procs _

/-- The global histogram values sum to the global number of cells. -/
theorem radius_ratio_values_sum (procs : List (List ℚ)) (numBins : ℕ)
    (h : 1 ≤ numBins) :
    (radius_ratio_histogram_data procs numBins).2.sum =
      ((procs.map List.length).sum : ℕ) := by
  show ((List.range numBins).map fun j =>
      ((procs.map (radius_ratio_histogram_local · numBins)).map fun v => v.getD j 0).sum).sum = _
  rw [sum_map_range, sum_comm_list]
  rw [List.map_map]
  simp only [Function.comp_def]
  have : ∀ cells : List ℚ,
      (∑ i ∈ Finset.range numBins,
        (radius_ratio_histogram_local cells numBins).getD i 0) = (cells.length : ℚ) := by
    intro cells
    have hlen := radius_ratio_histogram_local_length cells numBins
    calc ∑ i ∈ Finset.range numBins, (radius_ratio_histogram_local cells numBins).getD i 0
        = ∑ i ∈ Finset.range (radius_ratio_histogram_local cells numBins).length,
            (radius_ratio_histogram_local cells numBins).getD i 0 := by rw [hlen]
      _ = (radius_ratio_histogram_local cells numBins).sum := sum_range_getD _
      _ = (cells.length : ℚ) := radius_ratio_histogram_local_sum cells numBins h
  rw [List.map_congr_left (fun cells _ => this cells)]
  exact sum_map_cast' procs List.length

theorem radius_ratio_bins_eq (procs : List (List ℚ)) (numBins : ℕ) :
    (radius_ratio_histogram_data procs numBins).1 =
      (List.range numBins).map fun i => ((i : ℚ) + 1 / 2) * (1 / (numBins : ℚ)) := by
  show (List.range numBins).map (fun i => (i : ℚ) * (1 / (numBins : ℚ)) + (1 / (numBins : ℚ)) / 2) = _
  exact List.map_congr_left (fun i _ => by ring)

end MeshQuality

namespace MeshQuality

/-! ## Unfolding `radius_ratio_min_max` into its two reductions -/

theorem radius_ratio_min_max_eq (procs : List (List ℚ)) :
    radius_ratio_min_max procs =
      (mpiReduce min (procs.map fun c => c.foldl min DBL_MAX),
       mpiReduce max (procs.map fun c => c.foldl max 0)) := by
  show (mpiReduce min ((procs.map localMinMax).map Prod.fst),
        mpiReduce max ((procs.map localMinMax).map Prod.snd)) = _
  rw [List.map_map, List.map_map]
  congr 1
  · congr 1
    exact List.map_congr_left fun c _ => by
      simp only [Function.comp_apply, localMinMax_eq]
  · congr 1
    exact List.map_congr_left fun c _ => by
      simp only [Function.comp_apply, localMinMax_eq]

theorem one_lt_DBL_MAX : (1 : ℚ) < DBL_MAX := by
  unfold DBL_MAX
  have h1 : (2 : ℚ) ^ 971 ≤ 2 ^ 1023 :=
    pow_le_pow_right₀ (by norm_num) (by norm_num)
  have h2 : (2 : ℚ) ^ 1023 + 2 ^ 1023 = 2 ^ 1024 := by ring
  have h3 : (1 : ℚ) < 2 ^ 1023 := by
    calc (1 : ℚ) < 2 := by norm_num
      _ = 2 ^ 1 := by ring
      _ ≤ 2 ^ 1023 := pow_le_pow_right₀ (by norm_num) (by norm_num)
  linarith

/-- C1: for every mesh and every `num_bins ≥ 1`, `radius_ratio_histogram_data`
counts each cell in bin `min(⌊ratio / bin_width⌋, num_bins − 1)` (the floor,
clamped to the last bin): `values[i]` is the global number of cells whose slot
equals `i`, a slot is never out of range, and a ratio of exactly `1.0` lands
in bin `num_bins − 1`. -/
theorem radius_ratio_histogram_bucketing (procs : List (List ℚ)) (numBins : ℕ)
    (h : 1 ≤ numBins) :
    (∀ i, i < numBins →
      (radius_ratio_histogram_data procs numBins).2.getD i 0 =
        ((procs.map fun cells =>
          cells.countP fun r => rrSlot r (1 / (numBins : ℚ)) numBins = i).sum : ℕ)) ∧
    (∀ ratio interval : ℚ, rrSlot ratio interval numBins < numBins) ∧
    rrSlot 1 (1 / (numBins : ℚ)) numBins = numBins - 1 :=
  ⟨fun i hi => radius_ratio_values_getD procs numBins h i hi,
   fun ratio interval => rrSlot_lt ratio interval numBins h,
   rrSlot_one numBins h⟩

theorem radius_ratio_histogram_bucketing_witness :
    1 ≤ 2 ∧
    ((∀ i, i < 2 →
      (radius_ratio_histogram_data [[(1 : ℚ)/2, 1]] 2).2.getD i 0 =
        (([[(1 : ℚ)/2, 1]].map fun cells =>
          cells.countP fun r => rrSlot r (1 / ((2 : ℕ) : ℚ)) 2 = i).sum : ℕ)) ∧
    (∀ ratio interval : ℚ, rrSlot ratio interval 2 < 2) ∧
    rrSlot 1 (1 / ((2 : ℕ) : ℚ)) 2 = 2 - 1) :=
  ⟨by decide, radius_ratio_histogram_bucketing [[(1 : ℚ)/2, 1]] 2 (by decide)⟩

/-- C2: for every mesh and every `num_bins ≥ 1`, the returned `values` sum to
the global number of cells: each cell increments exactly one bin and the
per-process bin counts are sum-reduced across all processes. -/
theorem radius_ratio_histogram_total (procs : List (List ℚ)) (numBins : ℕ)
    (h : 1 ≤ numBins) :
    (radius_ratio_histogram_data procs numBins).2.sum =
      ((procs.map List.length).sum : ℕ) :=
  radius_ratio_values_sum procs numBins h

theorem radius_ratio_histogram_total_witness :
    1 ≤ 3 ∧
    (radius_ratio_histogram_data [[(1 : ℚ)/2], [(1 : ℚ)/3, 1]] 3).2.sum =
      (([[(1 : ℚ)/2], [(1 : ℚ)/3, 1]].map List.length).sum : ℕ) :=
  ⟨by decide,
   radius_ratio_histogram_total [[(1 : ℚ)/2], [(1 : ℚ)/3, 1]] 3 (by decide)⟩

/-- C3: `radius_ratio_min_max` returns the global extrema: its first
component is the minimum of all cells' radius ratios over all processes, its
second the maximum, and on a single-process mesh it equals the direct
min/max over a radius-ratio scan of the cells. -/
theorem radius_ratio_min_max_global_extrema (procs : List (List ℚ))
    (hproc : procs ≠ []) (hjoin : procs.join ≠ [])
    (hb : ∀ r ∈ procs.join, 0 < r ∧ r ≤ 1) :
    ((radius_ratio_min_max procs).1 ∈ procs.join ∧
      ∀ r ∈ procs.join, (radius_ratio_min_max procs).1 ≤ r) ∧
    ((radius_ratio_min_max procs).2 ∈ procs.join ∧
      ∀ r ∈ procs.join, r ≤ (radius_ratio_min_max procs).2) ∧
    radius_ratio_min_max [procs.join] =
      (specScanMin procs.join, specScanMax procs.join) := by
  obtain ⟨r0, hr0⟩ := List.exists_mem_of_ne_nil procs.join hjoin
  have heq := radius_ratio_min_max_eq procs
  have hminle : ∀ r ∈ procs.join,
      mpiReduce min (procs.map fun c => c.foldl min DBL_MAX) ≤ r := by
    intro r hr
    rcases List.mem_join.mp hr with ⟨p, hp, hrp⟩
    exact le_trans
      (mpiReduce_min_le _ _ (List.mem_map_of_mem _ hp))
      (foldl_min_le_mem p DBL_MAX r hrp)
  have hminmem : mpiReduce min (procs.map fun c => c.foldl min DBL_MAX) ∈
      procs.join := by
    have hmem := mpiReduce_min_mem (procs.map fun c => c.foldl min DBL_MAX)
      (by simpa using hproc)
    rcases List.mem_map.mp hmem with ⟨q, hq, hfold⟩
    rcases foldl_min_eq_or_mem q DBL_MAX with hcase | hcase
    · exfalso
      have hle := hminle r0 hr0
      rw [← hfold, hcase] at hle
      exact absurd (le_trans hle (hb r0 hr0).2) (not_le.mpr one_lt_DBL_MAX)
    · rw [← hfold]
      exact List.mem_join_of_mem hq hcase
  have hmaxge : ∀ r ∈ procs.join,
      r ≤ mpiReduce max (procs.map fun c => c.foldl max 0) := by
    intro r hr
    rcases List.mem_join.mp hr with ⟨p, hp, hrp⟩
    exact le_trans (mem_le_foldl_max p 0 r hrp)
      (mpiReduce_max_ge _ _ (List.mem_map_of_mem _ hp))
  have hmaxmem : mpiReduce max (procs.map fun c => c.foldl max 0) ∈
      procs.join := by
    have hmem := mpiReduce_max_mem (procs.map fun c => c.foldl max 0)
      (by simpa using hproc)
    rcases List.mem_map.mp hmem with ⟨q, hq, hfold⟩
    rcases foldl_max_eq_or_mem q 0 with hcase | hcase
    · exfalso
      have hge := hmaxge r0 hr0
      rw [← hfold, hcase] at hge
      exact absurd (lt_of_lt_of_le (hb r0 hr0).1 hge) (lt_irrefl 0)
    · rw [← hfold]
      exact List.mem_join_of_mem hq hcase
  refine ⟨⟨?_, ?_⟩, ⟨?_, ?_⟩, ?_⟩
  · rw [heq]; exact hminmem
  · intro r hr; rw [heq]; exact hminle r hr
  · rw [heq]; exact hmaxmem
  · intro r hr; rw [heq]; exact hmaxge r hr
  · obtain ⟨x, xs, hj⟩ : ∃ x xs, procs.join = x :: xs := by
      cases hcase : procs.join with
      | nil => exact absurd hcase hjoin
      | cons a b => exact ⟨a, b, rfl⟩
    have hx : 0 < x ∧ x ≤ 1 := hb x (hj ▸ List.mem_cons_self x xs)
    rw [hj, radius_ratio_min_max_eq]
    show ((x :: xs).foldl min DBL_MAX, (x :: xs).foldl max 0) =
      (specScanMin (x :: xs), specScanMax (x :: xs))
    rw [List.foldl_cons, List.foldl_cons]
    rw [min_eq_right (le_of_lt (lt_of_le_of_lt hx.2 one_lt_DBL_MAX))]
    rw [max_eq_right (le_of_lt hx.1)]
    rfl

theorem radius_ratio_min_max_global_extrema_witness :
    ([[(1 : ℚ)/2, 1], [(1 : ℚ)/3]] : List (List ℚ)) ≠ [] ∧
    ([[(1 : ℚ)/2, 1], [(1 : ℚ)/3]] : List (List ℚ)).join ≠ [] ∧
    (∀ r ∈ ([[(1 : ℚ)/2, 1], [(1 : ℚ)/3]] : List (List ℚ)).join, 0 < r ∧ r ≤ 1) ∧
    (((radius_ratio_min_max [[(1 : ℚ)/2, 1], [(1 : ℚ)/3]]).1 ∈
        ([[(1 : ℚ)/2, 1], [(1 : ℚ)/3]] : List (List ℚ)).join ∧
      ∀ r ∈ ([[(1 : ℚ)/2, 1], [(1 : ℚ)/3]] : List (List ℚ)).join,
        (radius_ratio_min_max [[(1 : ℚ)/2, 1], [(1 : ℚ)/3]]).1 ≤ r) ∧
    ((radius_ratio_min_max [[(1 : ℚ)/2, 1], [(1 : ℚ)/3]]).2 ∈
        ([[(1 : ℚ)/2, 1], [(1 : ℚ)/3]] : List (List ℚ)).join ∧
      ∀ r ∈ ([[(1 : ℚ)/2, 1], [(1 : ℚ)/3]] : List (List ℚ)).join,
        r ≤ (radius_ratio_min_max [[(1 : ℚ)/2, 1], [(1 : ℚ)/3]]).2) ∧
    radius_ratio_min_max [([[(1 : ℚ)/2, 1], [(1 : ℚ)/3]] : List (List ℚ)).join] =
      (specScanMin ([[(1 : ℚ)/2, 1], [(1 : ℚ)/3]] : List (List ℚ)).join,
       specScanMax ([[(1 : ℚ)/2, 1], [(1 : ℚ)/3]] : List (List ℚ)).join)) :=
  ⟨by simp, by simp, by intro r hr; fin_cases hr <;> norm_num,
   radius_ratio_min_max_global_extrema [[(1 : ℚ)/2, 1], [(1 : ℚ)/3]]
     (by simp) (by simp) (by intro r hr; fin_cases hr <;> norm_num)⟩

/-- C6: the bins returned by `radius_ratio_histogram_data` are the centres
`(i + 1/2) * (1/num_bins)` of `num_bins` equal-width bins over `[0, 1]`; for
`num_bins = 4` they are `0.125, 0.375, 0.625, 0.875`, and for any
single-process mesh of 2 cells (e.g. a unit cube split into 2 tetrahedra) the
values sum to 2. -/
theorem radius_ratio_histogram_bins_centres (procs : List (List ℚ)) (numBins : ℕ) :
    ((radius_ratio_histogram_data procs numBins).1 =
      (List.range numBins).map fun i => ((i : ℚ) + 1 / 2) * (1 / (numBins : ℚ))) ∧
    ((radius_ratio_histogram_data procs 4).1 =
      [1/8, 3/8, 5/8, 7/8]) ∧
    (∀ cells : List ℚ, cells.length = 2 →
      (radius_ratio_histogram_data [cells] 4).2.sum = 2) := by
  refine ⟨radius_ratio_bins_eq procs numBins, ?_, ?_⟩
  · rw [radius_ratio_bins_eq]
    norm_num [List.range_succ]
  · intro cells hlen
    rw [radius_ratio_values_sum [cells] 4 (by norm_num)]
    simp [hlen]

theorem radius_ratio_histogram_bins_centres_witness :
    ((radius_ratio_histogram_data [[(1 : ℚ)/3, 1/2]] 4).1 =
      [1/8, 3/8, 5/8, 7/8]) ∧
    ([(1 : ℚ)/3, 1/2].length = 2 ∧
      (radius_ratio_histogram_data [[(1 : ℚ)/3, 1/2]] 4).2.sum = 2) :=
  ⟨(radius_ratio_histogram_bins_centres [[(1 : ℚ)/3, 1/2]] 4).2.1,
   by decide,
   (radius_ratio_histogram_bins_centres [[(1 : ℚ)/3, 1/2]] 4).2.2
     [(1 : ℚ)/3, 1/2] (by decide)⟩

/-- C8: under the precondition that every cell's radius ratio lies in
`(0, 1]`, the condition asserted by `radius_ratio_histogram_data` — the
global maximum radius ratio is at most `1.0` — always holds, so the assert's
failure branch is unreachable. -/
theorem radius_ratio_histogram_assert_valid (procs : List (List ℚ))
    (hproc : procs ≠ []) (hb : ∀ r ∈ procs.join, 0 < r ∧ r ≤ 1) :
    (radius_ratio_min_max procs).2 ≤ 1 := by
  rw [radius_ratio_min_max_eq]
  have hall : ∀ x ∈ procs.map (fun c => c.foldl max 0), x ≤ 1 := by
    intro x hx
    rcases List.mem_map.mp hx with ⟨q, hq, rfl⟩
    exact foldl_max_le q 0 1 (by norm_num)
      (fun r hr => (hb r (List.mem_join_of_mem hq hr)).2)
  exact hall _ (mpiReduce_max_mem _ (by simpa using hproc))

theorem radius_ratio_histogram_assert_valid_witness :
    ([[(1 : ℚ)/2, 1]] : List (List ℚ)) ≠ [] ∧
    (∀ r ∈ ([[(1 : ℚ)/2, 1]] : List (List ℚ)).join, 0 < r ∧ r ≤ 1) ∧
    (radius_ratio_min_max [[(1 : ℚ)/2, 1]]).2 ≤ 1 :=
  ⟨by simp, by intro r hr; fin_cases hr <;> norm_num,
   radius_ratio_histogram_assert_valid [[(1 : ℚ)/2, 1]] (by simp)
     (by intro r hr; fin_cases hr <;> norm_num)⟩

/-- C10: on a mesh with zero cells on every process, `radius_ratio_min_max`
returns the sentinel pair `(DBL_MAX, 0.0)` — the initial accumulators survive
the empty scans and reductions — so the returned minimum exceeds the
returned maximum. -/
theorem radius_ratio_min_max_empty_sentinel (procs : List (List ℚ))
    (hproc : procs ≠ []) (hempty : ∀ p ∈ procs, p = []) :
    radius_ratio_min_max procs = (DBL_MAX, 0) ∧
      (radius_ratio_min_max procs).2 < (radius_ratio_min_max procs).1 := by
  have heq : radius_ratio_min_max procs = (DBL_MAX, 0) := by
    rw [radius_ratio_min_max_eq]
    have h1 : mpiReduce min (procs.map fun c => c.foldl min DBL_MAX) = DBL_MAX :=
      mpiReduce_const min DBL_MAX (min_self _) _
        (fun x hx => by
          rcases List.mem_map.mp hx with ⟨q, hq, rfl⟩
          simp [hempty q hq])
        (by simpa using hproc)
    have h2 : mpiReduce max (procs.map fun c => c.foldl max 0) = 0 :=
      mpiReduce_const max 0 (max_self _) _
        (fun x hx => by
          rcases List.mem_map.mp hx with ⟨q, hq, rfl⟩
          simp [hempty q hq])
        (by simpa using hproc)
    rw [h1, h2]
  refine ⟨heq, ?_⟩
  rw [heq]
  show (0 : ℚ) < DBL_MAX
  exact lt_trans one_pos one_lt_DBL_MAX

theorem radius_ratio_min_max_empty_sentinel_witness :
    ([[], []] : List (List ℚ)) ≠ [] ∧
    (radius_ratio_min_max ([[], []] : List (List ℚ)) = (DBL_MAX, 0) ∧
      (radius_ratio_min_max ([[], []] : List (List ℚ))).2 <
        (radius_ratio_min_max ([[], []] : List (List ℚ))).1) :=
  ⟨by simp,
   radius_ratio_min_max_empty_sentinel [[], []] (by simp) (by simp)⟩

end MeshQuality

namespace MeshQuality

/-! ## Dihedral angles -/

theorem getD_replicate_zero {α : Type*} (z : α) (n i : ℕ) :
    (List.replicate n z).getD i z = z := by
  rcases lt_or_ge i n with hi | hi
  · simp [List.getD, List.getElem?_replicate, hi]
  · have hlen : (List.replicate n z).length ≤ i := by simpa using hi
    simp [List.getD, List.getElem?_eq_none hlen]

theorem dihedral_angles_3d (cell : Cell) (h : cell.tdim = 3) (dh : List ℝ) :
    dihedral_angles cell dh = (cellAngles cell, none) := by
  unfold dihedral_angles cellAngles
  rw [if_neg (by simp [h])]

theorem daSlot_lt (angle interval : ℝ) (numBins : ℕ) (h : 1 ≤ numBins) :
    daSlot angle interval numBins < numBins := by
  unfold daSlot
  exact lt_of_le_of_lt (min_le_right _ _) (Nat.sub_lt h Nat.one_pos)

theorem daSlot_pi (numBins : ℕ) (h : 1 ≤ numBins) :
    daSlot Real.pi (Real.pi / (numBins : ℝ)) numBins = numBins - 1 := by
  unfold daSlot
  have hn : (numBins : ℝ) ≠ 0 := Nat.cast_ne_zero.mpr (by omega)
  have hd : Real.pi / (Real.pi / (numBins : ℝ)) = (numBins : ℝ) := by
    field_simp
  rw [hd, Int.floor_natCast, Int.toNat_natCast]
  omega

theorem dihedral_angles_histogram_local_ok (cells : List Cell) (numBins : ℕ)
    (values : List ℝ) (h3 : ∀ c ∈ cells, c.tdim = 3) :
    dihedral_angles_histogram_local cells numBins values =
      .ok (((cells.map fun c => cellSlots c numBins).join).foldl bumpAt values) := by
  induction cells generalizing values with
  | nil => rfl
  | cons c cs ih =>
    simp only [dihedral_angles_histogram_local]
    rw [dihedral_angles_3d c (h3 c (List.mem_cons_self _ _))]
    show dihedral_angles_histogram_local cs numBins
        ((cellAngles c).foldl _ values) = _
    rw [ih _ (fun d hd => h3 d (List.mem_cons_of_mem _ hd))]
    simp only [List.map_cons, List.join_cons, List.foldl_append]
    have hstep : (cellAngles c).foldl
        (fun values a =>
          let slot := daSlot a (Real.pi / (numBins : ℝ)) numBins
          values.set slot (values.getD slot 0 + 1)) values =
        (cellSlots c numBins).foldl bumpAt values := by
      rw [show cellSlots c numBins = (cellAngles c).map
          (fun a => daSlot a (Real.pi / (numBins : ℝ)) numBins) from rfl,
        List.foldl_map]
      rfl
    rw [hstep]

theorem gatherLocals_ok (procs : List (List Cell)) (numBins : ℕ)
    (h3 : ∀ cells ∈ procs, ∀ c ∈ cells, c.tdim = 3) :
    gatherLocals procs numBins =
      .ok (procs.map fun cells =>
        ((cells.map fun c => cellSlots c numBins).join).foldl bumpAt
          (List.replicate numBins 0)) := by
  induction procs with
  | nil => rfl
  | cons p ps ih =>
    simp only [gatherLocals]
    rw [dihedral_angles_histogram_local_ok p numBins _
      (h3 p (List.mem_cons_self _ _))]
    rw [ih (fun cells hc => h3 cells (List.mem_cons_of_mem _ hc))]
    rfl

theorem dihedral_values_entry (procs : List (List Cell)) (numBins : ℕ)
    (h : 1 ≤ numBins) (i : ℕ) :
    ((procs.map fun cells =>
        ((cells.map fun c => cellSlots c numBins).join).foldl bumpAt
          (List.replicate numBins (0 : ℝ))).map fun v => v.getD i 0).sum =
      ((procs.map fun cells =>
        ((cells.map fun c => cellSlots c numBins).join).countP
          (fun s => s = i)).sum : ℕ) := by
  rw [List.map_map]
  simp only [Function.comp_def]
  have key : ∀ cells : List Cell,
      (((cells.map fun c => cellSlots c numBins).join).foldl bumpAt
        (List.replicate numBins (0 : ℝ))).getD i 0 =
      ((((cells.map fun c => cellSlots c numBins).join).countP
        (fun s => s = i) : ℕ) : ℝ) := by
    intro cells
    rw [foldl_bumpAt_getD _ _ _ (fun s hs => by
      rw [List.length_replicate]
      rcases List.mem_join.mp hs with ⟨sl, hsl, hssl⟩
      rcases List.mem_map.mp hsl with ⟨c, _, rfl⟩
      rcases List.mem_map.mp hssl with ⟨a, _, rfl⟩
      exact daSlot_lt a _ numBins h)]
    rw [getD_replicate_zero, zero_add]
  rw [List.map_congr_left fun cells _ => key cells]
  exact sum_map_cast' procs _

/-- C4: `dihedral_angles` on a non-3D cell reports an error and performs no
write at all to the caller-supplied output array: the array is returned with
its previous contents and length. -/
theorem dihedral_angles_non3d_error (cell : Cell) (dh : List ℝ)
    (h : cell.tdim ≠ 3) :
    dihedral_angles cell dh =
      (dh, some "calculate dihedral angles: Only works for 3D cells") := by
  unfold dihedral_angles
  rw [if_pos h]

theorem dihedral_angles_non3d_error_witness :
    (Cell.mk 2 [0, 1, 2] []).tdim ≠ 3 ∧
    dihedral_angles (Cell.mk 2 [0, 1, 2] []) [42] =
      ([42], some "calculate dihedral angles: Only works for 3D cells") :=
  ⟨by decide, dihedral_angles_non3d_error (Cell.mk 2 [0, 1, 2] []) [42] (by decide)⟩

/-- C5: on a 3D cell, `dihedral_angles` resizes the output array to exactly
6 entries and sets entry `i` to
`acos((v2·v3 − (v1·v2)(v1·v3)) / (|v1×v2| |v1×v3|))`, where `v1, v2, v3`
are the unit vectors along the edges from the shared base vertex determined
by the `i`-th edge pair of the tetrahedron's 6 edges. -/
theorem dihedral_angles_formula (cell : Cell) (dh : List ℝ)
    (h : cell.tdim = 3) :
    (dihedral_angles cell dh).1.length = 6 ∧
    (dihedral_angles cell dh).2 = none ∧
    ∀ i, i < 6 → (dihedral_angles cell dh).1.getD i 0 = specAngleOfCell cell i := by
  rw [dihedral_angles_3d cell h dh]
  refine ⟨by simp [cellAngles], rfl, ?_⟩
  intro i hi
  show (cellAngles cell).getD i 0 = specAngleOfCell cell i
  rw [cellAngles, List.getD_eq_getElem?_getD, List.getElem?_map,
    List.getElem?_range hi]
  rfl

theorem dihedral_angles_formula_witness :
    (Cell.mk 3 [0, 1, 2, 3]
      [⟨0, 0, 0⟩, ⟨1, 0, 0⟩, ⟨0, 1, 0⟩, ⟨0, 0, 1⟩]).tdim = 3 ∧
    ((dihedral_angles (Cell.mk 3 [0, 1, 2, 3]
        [⟨0, 0, 0⟩, ⟨1, 0, 0⟩, ⟨0, 1, 0⟩, ⟨0, 0, 1⟩]) []).1.length = 6 ∧
    (dihedral_angles (Cell.mk 3 [0, 1, 2, 3]
        [⟨0, 0, 0⟩, ⟨1, 0, 0⟩, ⟨0, 1, 0⟩, ⟨0, 0, 1⟩]) []).2 = none ∧
    ∀ i, i < 6 →
      (dihedral_angles (Cell.mk 3 [0, 1, 2, 3]
        [⟨0, 0, 0⟩, ⟨1, 0, 0⟩, ⟨0, 1, 0⟩, ⟨0, 0, 1⟩]) []).1.getD i 0 =
        specAngleOfCell (Cell.mk 3 [0, 1, 2, 3]
          [⟨0, 0, 0⟩, ⟨1, 0, 0⟩, ⟨0, 1, 0⟩, ⟨0, 0, 1⟩]) i) :=
  ⟨rfl, dihedral_angles_formula (Cell.mk 3 [0, 1, 2, 3]
    [⟨0, 0, 0⟩, ⟨1, 0, 0⟩, ⟨0, 1, 0⟩, ⟨0, 0, 1⟩]) [] rfl⟩

end MeshQuality

namespace MeshQuality

/-- C7: for 3D meshes and `num_bins ≥ 1`, `dihedral_angles_histogram_data`
follows the same local-compute-then-sum-reduce pattern as the radius-ratio
histogram over `[0, π]`: bins are the centres `(i + 1/2) * π/num_bins`, each
of a cell's 6 angles is bucketed at `min(⌊angle/(π/num_bins)⌋, num_bins − 1)`
(an angle of exactly `π` lands in the last bin, never out of range), and the
per-process counts are sum-reduced across all processes. -/
theorem dihedral_angles_histogram_pattern (procs : List (List Cell))
    (numBins : ℕ) (h : 1 ≤ numBins)
    (h3 : ∀ cells ∈ procs, ∀ c ∈ cells, c.tdim = 3) :
    dihedral_angles_histogram_data procs numBins =
      .ok ((List.range numBins).map
            (fun i => (i : ℝ) * (Real.pi / (numBins : ℝ)) +
              (Real.pi / (numBins : ℝ)) / 2),
           (List.range numBins).map fun i =>
             (((procs.map fun cells =>
               ((cells.map fun c => cellSlots c numBins).join).countP
                 (fun s => s = i)).sum : ℕ) : ℝ)) ∧
    ((List.range numBins).map
        (fun i => (i : ℝ) * (Real.pi / (numBins : ℝ)) +
          (Real.pi / (numBins : ℝ)) / 2)) =
      ((List.range numBins).map fun i =>
        ((i : ℝ) + 1/2) * (Real.pi / (numBins : ℝ))) ∧
    (∀ a : ℝ, daSlot a (Real.pi / (numBins : ℝ)) numBins < numBins) ∧
    daSlot Real.pi (Real.pi / (numBins : ℝ)) numBins = numBins - 1 := by
  refine ⟨?_, ?_, fun a => daSlot_lt a _ numBins h, daSlot_pi numBins h⟩
  · have hred : dihedral_angles_histogram_data procs numBins =
        Except.ok ((List.range numBins).map
            (fun i => (i : ℝ) * (Real.pi / (numBins : ℝ)) +
              (Real.pi / (numBins : ℝ)) / 2),
          (List.range numBins).map fun i =>
            ((procs.map fun cells =>
              ((cells.map fun c => cellSlots c numBins).join).foldl bumpAt
                (List.replicate numBins 0)).map fun v => v.getD i 0).sum) := by
      unfold dihedral_angles_histogram_data
      rw [gatherLocals_ok procs numBins h3]
      rfl
    rw [hred]
    refine congrArg Except.ok ?_
    refine congrArg (Prod.mk _) ?_
    exact List.map_congr_left fun i _ => dihedral_values_entry procs numBins h i
  · exact List.map_congr_left fun i _ => by ring

theorem dihedral_angles_histogram_pattern_witness :
    1 ≤ 1 ∧
    (dihedral_angles_histogram_data
        [[Cell.mk 3 [0, 1, 2, 3] [⟨0, 0, 0⟩, ⟨1, 0, 0⟩, ⟨0, 1, 0⟩, ⟨0, 0, 1⟩]]] 1 =
      .ok ((List.range 1).map
            (fun i => (i : ℝ) * (Real.pi / ((1 : ℕ) : ℝ)) +
              (Real.pi / ((1 : ℕ) : ℝ)) / 2),
           (List.range 1).map fun i =>
             ((([[Cell.mk 3 [0, 1, 2, 3]
                  [⟨0, 0, 0⟩, ⟨1, 0, 0⟩, ⟨0, 1, 0⟩, ⟨0, 0, 1⟩]]].map fun cells =>
               ((cells.map fun c => cellSlots c 1).join).countP
                 (fun s => s = i)).sum : ℕ) : ℝ)) ∧
    ((List.range 1).map
        (fun i => (i : ℝ) * (Real.pi / ((1 : ℕ) : ℝ)) +
          (Real.pi / ((1 : ℕ) : ℝ)) / 2)) =
      ((List.range 1).map fun i =>
        ((i : ℝ) + 1/2) * (Real.pi / ((1 : ℕ) : ℝ))) ∧
    (∀ a : ℝ, daSlot a (Real.pi / ((1 : ℕ) : ℝ)) 1 < 1) ∧
    daSlot Real.pi (Real.pi / ((1 : ℕ) : ℝ)) 1 = 1 - 1) :=
  ⟨by decide,
   dihedral_angles_histogram_pattern
     [[Cell.mk 3 [0, 1, 2, 3] [⟨0, 0, 0⟩, ⟨1, 0, 0⟩, ⟨0, 1, 0⟩, ⟨0, 0, 1⟩]]] 1
     (by decide)
     (by
       intro cells hc c hcc
       rw [List.mem_singleton] at hc
       subst hc
       rw [List.mem_singleton] at hcc
       subst hcc
       rfl)⟩

/-- C9: resizing a distributed vector whose backing storage is shared with
another live owner reports an error and leaves the shared storage unmutated
(the call returns only the error); resize succeeds exactly when the vector
has unique ownership of its storage. -/
theorem resize_requires_unique_ownership (v : EpetraVector) (n : ℕ) :
    (v.useCount ≠ 1 → v.resize n =
      .error "resize Epetra vector: Vector data is shared and cannot be resized") ∧
    ((∃ w, v.resize n = .ok w) ↔ v.useCount = 1) := by
  constructor
  · intro h
    unfold EpetraVector.resize
    rw [if_pos h]
  · constructor
    · rintro ⟨w, hw⟩
      by_contra h
      unfold EpetraVector.resize at hw
      rw [if_pos h] at hw
      exact Except.noConfusion hw
    · intro h
      refine ⟨⟨List.replicate n 0, 1⟩, ?_⟩
      unfold EpetraVector.resize
      rw [if_neg (by simp [h])]

theorem resize_requires_unique_ownership_witness :
    ((EpetraVector.mk [1, 2] 2).resize 3 =
      .error "resize Epetra vector: Vector data is shared and cannot be resized") ∧
    (∃ w, (EpetraVector.mk [1, 2] 1).resize 3 = .ok w) :=
  ⟨(resize_requires_unique_ownership (EpetraVector.mk [1, 2] 2) 3).1 (by decide),
   (resize_requires_unique_ownership (EpetraVector.mk [1, 2] 1) 3).2.mpr rfl⟩

end MeshQuality
